import Mathlib

set_option maxRecDepth 4000

/-!
Verification development for the mindsdb excerpt: the S3 integration handler
(`src/mindsdb/integrations/handlers/s3_handler/s3_handler.py`) embedded from
its source, and the model-version manager / job scheduler / join-aggregation
executor modelled from the specification (their bodies are not part of the
excerpt; only tests exercise them).
-/

namespace S3

/-- Embeds the key mangling of `S3Handler.get_tables` (s3_handler.py line 234):
`obj['Key'].replace('.', '_')`, a per-character replacement of every period by
an underscore. -/
def tableNameOfKey (key : String) : String :=
  ⟨key.data.map (fun c => if c = '.' then '_' else c)⟩

/-- Embeds the inverse mangling of `S3Handler.native_query` (s3_handler.py
line 131): `self.table_name.replace('_', '.')`, a per-character replacement of
every underscore by a period. -/
def keyOfTableName (name : String) : String :=
  ⟨name.data.map (fun c => if c = '_' then '.' else c)⟩

/-- The message of the `ValueError` raised by `S3Handler.native_query`
(s3_handler.py line 145) for keys without a supported extension. -/
def allowedExtensionsError : String :=
  "The Key should have one of the following extensions: .csv, .json, .parquet"

/-- The `InputSerialization` argument built by `S3Handler.native_query`
(s3_handler.py lines 134-143). -/
inductive InputSerialization
  | csv (useFileHeader : Bool)
  | json
  | parquet
deriving DecidableEq, Repr

/-- The `select_object_content` request that `S3Handler.native_query` issues
when validation succeeds (s3_handler.py lines 148-155). -/
structure FetchRequest where
  key : String
  expression : String
  inputSerialization : InputSerialization
deriving DecidableEq, Repr

/-- Python's `str.endswith`, as a suffix test on the character list. -/
def endsWithExt (key ext : String) : Bool :=
  ext.data.isSuffixOf key.data

/-- Embeds `S3Handler.native_query` (s3_handler.py lines 117-155) up to the
external `select_object_content` call: the table name is unmangled into the
object key, the extension is validated, and on success the fetch request is
produced; an unsupported extension raises `ValueError` before any fetch. -/
def native_query (table_name : String) (column_names : List String)
    (query : String) : Except String FetchRequest :=
  let key := keyOfTableName table_name
  if endsWithExt key ".csv" then
    .ok ⟨key, query, .csv (!column_names.isEmpty)⟩
  else if endsWithExt key ".json" then
    .ok ⟨key, query, .json⟩
  else if endsWithExt key ".parquet" then
    .ok ⟨key, query, .parquet⟩
  else
    .error allowedExtensionsError

/-- The fragment of the mindsdb_sql AST that `S3Handler.query` inspects: a
SELECT target is either `Star` or an identifier with dotted parts and an
optional alias. -/
inductive TargetNode
  | star
  | col (parts : List String) (aliasName : Option String)
deriving DecidableEq, Repr

/-- The fragment of the mindsdb_sql AST that `S3Handler.query` dispatches on:
`Select` carries its FROM identifier and targets; every other statement kind
(INSERT, DELETE, ...) only matters through not being a `Select`. -/
inductive ASTNode
  | select (from_parts : List String) (from_alias : Option String)
      (targets : List TargetNode)
  | insert
  | update
  | del
  | other
deriving DecidableEq, Repr

/-- Whether the node is a `Select` (the `isinstance(query, Select)` test of
s3_handler.py line 195). -/
def ASTNode.isSelect : ASTNode → Bool
  | .select _ _ _ => true
  | _ => false

/-- The mutable handler attributes that `S3Handler.query` touches:
`self.table_name` (initially `None`) and `self.column_names` (initially
empty, appended to by `query`). -/
structure HandlerState where
  table_name : Option String
  column_names : List String
deriving DecidableEq, Repr

/-- Python's `a or b` on strings: `b` when `a` is empty. -/
def pyOr (a b : String) : String :=
  if a = "" then b else a

/-- The column name `S3Handler.query` records for one non-star target
(s3_handler.py lines 212-217): the alias if non-empty, else the single part
for unqualified targets or the last part for qualified ones. -/
def targetColumnName : TargetNode → String
  | .star => ""
  | .col parts aliasName =>
    if parts.length = 1 then pyOr (aliasName.getD "") (parts.headD "")
    else pyOr (aliasName.getD "") (parts.getLastD "")

/-- The rewriting `S3Handler.query` applies to one non-star target
(s3_handler.py line 215): unqualified targets get the `s` alias part
prepended. -/
def rewriteTarget : TargetNode → TargetNode
  | .star => .star
  | .col parts aliasName =>
    if parts.length = 1 then .col ("s" :: parts) aliasName else .col parts aliasName

/-- Rendering of one target for the rewritten query text handed to
`native_query` (the `query.to_string()` of s3_handler.py line 219). -/
def renderTarget : TargetNode → String
  | .star => "*"
  | .col parts aliasName =>
    String.intercalate "." parts ++
      (match aliasName with | some a => " AS " ++ a | none => "")

/-- Rendering of the rewritten SELECT handed to `native_query`: the FROM
clause has been replaced by `S3Object` with the original (or introduced `s`)
alias (s3_handler.py lines 206-209). -/
def renderSelect (targets : List TargetNode) (fromAlias : String) : String :=
  "SELECT " ++ String.intercalate ", " (targets.map renderTarget) ++
    " FROM S3Object AS " ++ fromAlias

/-- Embeds `S3Handler.query` (s3_handler.py lines 185-219). A non-`Select`
node raises `ValueError` before the connection is made and before
`table_name` or `column_names` change; a `Select` sets `table_name` from the
FROM clause, appends the target column names (unless the first target is
`Star`), rewrites the FROM clause and targets, and calls `native_query` on
the rendered text. -/
def query (st : HandlerState) (q : ASTNode) :
    HandlerState × Except String FetchRequest :=
  match q with
  | .select from_parts from_alias targets =>
    let tn := from_parts.headD ""
    let isStar : Bool := match targets.head? with
      | some TargetNode.star => true
      | _ => false
    let cols :=
      if isStar then st.column_names
      else st.column_names ++ targets.map targetColumnName
    let targets' := if isStar then targets else targets.map rewriteTarget
    let st' : HandlerState := ⟨some tn, cols⟩
    (st', native_query tn cols (renderSelect targets' (from_alias.getD "s")))
  | _ => (st, .error "Only SELECT queries are supported.")

end S3


namespace MVM

/-- Modelled from the spec: ModelVersion status set `{generating, complete,
error}` (spec section 3); the version-manager body is not in the excerpt. -/
inductive Status
  | generating
  | complete
  | failed
deriving DecidableEq, Repr

/-- Modelled from the spec: a ModelVersion row with its version number,
status, predict target, tag, active mark and soft-delete mark (spec sections
3 and 4.1; deletion is a soft delete, since section 4.1 resolves against
versions that may be "soft-deleted" and section 3 forbids number reuse). -/
structure ModelVersion where
  version : Nat
  status : Status
  predictTarget : String
  tag : String
  active : Bool
  deleted : Bool
deriving DecidableEq, Repr

/-- Modelled from the spec: the per-model state of the Model Version Manager,
the list of all ModelVersion rows ever created for one `(project, name)`
(spec section 4.3); soft-deleted rows remain listed. -/
structure ModelState where
  versions : List ModelVersion
deriving DecidableEq, Repr

/-- Modelled from the spec: the error taxonomy relevant to the version
manager (spec section 7). -/
inductive MVErr
  | entityNotExists
  | operationForbidden
deriving DecidableEq, Repr

/-- Modelled from the spec: allocation of the next version number, `max
existing + 1` starting at 1 (spec section 4.3), over all rows ever created
for the model. -/
def nextVersion (st : ModelState) : Nat :=
  (st.versions.map (·.version)).foldr max 0 + 1

/-- The model's single active, non-deleted version, if any (spec section 3:
`activeVersionId`). -/
def activeVersion (st : ModelState) : Option ModelVersion :=
  st.versions.find? (fun v => v.active && !v.deleted)

/-- The non-deleted version carrying the given number, if any. -/
def liveVersion (st : ModelState) (n : Nat) : Option ModelVersion :=
  st.versions.find? (fun v => v.version == n && !v.deleted)

/-- Clearing every active mark, the un-set half of the atomic activation
switch (spec section 4.3, `activate`). -/
def clearActive (vs : List ModelVersion) : List ModelVersion :=
  vs.map (fun v => { v with active := false })

/-- Modelled from the spec: `createVersion` on the synchronous-completion
path (spec section 4.3) — allocates `nextVersion`, completes, and the new
version becomes the active one. -/
def createVersion (st : ModelState) (target tag : String) : ModelState :=
  ⟨clearActive st.versions ++
    [⟨nextVersion st, .complete, target, tag, true, false⟩]⟩

/-- Modelled from the spec: `retrain` on the synchronous-completion path
(spec sections 4.3 and 3) — target and tag default from the currently active
version when omitted; with `params.active = false` the new version completes
without becoming active and the prior active version is preserved. -/
def retrain (st : ModelState) (target? tag? : Option String)
    (makeActive : Bool) : Except MVErr ModelState :=
  match activeVersion st with
  | none => .error .entityNotExists
  | some av =>
    if makeActive then
      .ok ⟨clearActive st.versions ++
        [⟨nextVersion st, .complete, target?.getD av.predictTarget,
          tag?.getD av.tag, makeActive, false⟩]⟩
    else
      .ok ⟨st.versions ++
        [⟨nextVersion st, .complete, target?.getD av.predictTarget,
          tag?.getD av.tag, makeActive, false⟩]⟩

/-- Modelled from the spec: `activate(project, name, version)` (spec section
4.3) — `EntityNotExistsError` when the version is absent, otherwise a single
atomic assignment making it the only active version. -/
def activate (st : ModelState) (n : Nat) : Except MVErr ModelState :=
  match liveVersion st n with
  | none => .error .entityNotExists
  | some _ =>
    .ok ⟨st.versions.map
      (fun v => { v with active := v.version == n && !v.deleted })⟩

/-- Modelled from the spec: `delete(project, name, version)` (spec section
4.3) — `OperationForbiddenError` on the active version,
`EntityNotExistsError` on an absent version, otherwise the version is
soft-deleted. -/
def deleteVersion (st : ModelState) (n : Nat) : Except MVErr ModelState :=
  if (activeVersion st).map (·.version) = some n then
    .error .operationForbidden
  else
    match liveVersion st n with
    | none => .error .entityNotExists
    | some _ =>
      .ok ⟨st.versions.map
        (fun v => if v.version == n then { v with deleted := true } else v)⟩

/-- Modelled from the spec: the Relation Resolver on a predictor identifier
(spec section 4.1) — an explicit dotted version pins that version, absence
means the active version; a missing or soft-deleted version is
`EntityNotExistsError`. -/
def resolve (st : ModelState) (pin : Option Nat) :
    Except MVErr ModelVersion :=
  match pin with
  | some n =>
    match liveVersion st n with
    | none => .error .entityNotExists
    | some v => .ok v
  | none =>
    match activeVersion st with
    | none => .error .entityNotExists
    | some v => .ok v

/-- One version-manager operation (spec section 4.3). -/
inductive Op
  | create (target tag : String)
  | retrainOp (target? tag? : Option String) (makeActive : Bool)
  | activateOp (n : Nat)
  | deleteOp (n : Nat)
deriving DecidableEq, Repr

/-- Applies one operation to the model state. -/
def applyOp (st : ModelState) : Op → Except MVErr ModelState
  | .create target tag => .ok (createVersion st target tag)
  | .retrainOp target? tag? makeActive => retrain st target? tag? makeActive
  | .activateOp n => activate st n
  | .deleteOp n => deleteVersion st n

/-- Whether the operation carries an explicit activation request: `activate`
itself, and create/retrain with `params.active` left at its default true
(spec section 4.3). -/
def explicitActivation : Op → Bool
  | .create _ _ => true
  | .retrainOp _ _ makeActive => makeActive
  | .activateOp _ => true
  | .deleteOp _ => false

/-- The single-active-version invariant: at most one non-deleted version is
marked active (spec section 3). -/
def uniqueActive (st : ModelState) : Prop :=
  st.versions.countP (fun v => v.active && !v.deleted) ≤ 1

/-- Well-formedness: version numbers are pairwise distinct, which every
reachable state satisfies because allocation is an atomic per-model
increment (spec section 4.3). -/
def Wf (st : ModelState) : Prop :=
  (st.versions.map (·.version)).Nodup

instance (st : ModelState) : Decidable (uniqueActive st) := by
  unfold uniqueActive; infer_instance

instance (st : ModelState) : Decidable (Wf st) := by
  unfold Wf; infer_instance

/-- The state after `CREATE model task_model ... PREDICT a ... tag = 'first'`
of the retrain-cycle scenario (test_project_structure.py lines 79-91). -/
def scenario1 : ModelState :=
  createVersion ⟨[]⟩ "a" "first"

/-- The retrain-cycle scenario after `retrain ... PREDICT b using
tag = 'second'` (test_project_structure.py lines 108-119): version 2,
active. -/
def scenario2 : ModelState :=
  ⟨[⟨1, .complete, "a", "first", false, false⟩,
    ⟨2, .complete, "b", "second", true, false⟩]⟩

/-- The retrain-cycle scenario after `retrain ... PREDICT a using
tag='third', active=0` (test_project_structure.py lines 144-152): version 3
exists but version 2 stays active. -/
def scenario3 : ModelState :=
  ⟨[⟨1, .complete, "a", "first", false, false⟩,
    ⟨2, .complete, "b", "second", true, false⟩,
    ⟨3, .complete, "a", "third", false, false⟩]⟩

/-- The version-managing scenario after `update models_versions set active=1
where version=1` (test_project_structure.py lines 236-240): version 1
active. -/
def scenario4 : ModelState :=
  ⟨[⟨1, .complete, "a", "first", true, false⟩,
    ⟨2, .complete, "b", "second", false, false⟩,
    ⟨3, .complete, "a", "third", false, false⟩]⟩

end MVM

namespace Sched

/-- Modelled from the spec: one Job row — stored query text elided, since
execution is recorded only through history — with its `active` flag,
`nextRunAt` (none means no further runs are due) and recurrence period
(none means one-shot); times are naturals (spec section 3). -/
structure Job where
  name : String
  active : Bool
  nextRunAt : Option Nat
  period : Option Nat
deriving DecidableEq, Repr

/-- Modelled from the spec: scheduler state — the Job rows plus the
append-only history, one `(jobName, startedAt)` entry per executed tick
(spec sections 3 and 4.5). -/
structure SchedState where
  jobs : List Job
  history : List (String × Nat)
deriving DecidableEq, Repr

/-- Whether a job is due: active and `nextRunAt <= now` (spec section 4.5);
inactive jobs are skipped regardless of `nextRunAt`. -/
def due (now : Nat) (j : Job) : Bool :=
  j.active &&
    match j.nextRunAt with
    | some t => decide (t ≤ now)
    | none => false

/-- Modelled from the spec: one job's treatment within a tick (spec section
4.5) — a due job executes its stored query once, yielding one history entry,
and `nextRunAt` advances by the recurrence period added to the previous
`nextRunAt` (not to `now`), or becomes none for a one-shot job; a job not due
is untouched. -/
def runJob (now : Nat) (j : Job) : Job × Option (String × Nat) :=
  if due now j then
    ({ j with
        nextRunAt :=
          match j.nextRunAt, j.period with
          | some t, some p => some (t + p)
          | _, _ => none },
      some (j.name, now))
  else (j, none)

/-- Modelled from the spec: `checkTimetable()` (spec section 4.5) — every
active job with `nextRunAt <= now` executes once, appending its history
entry; the others are untouched. -/
def checkTimetable (now : Nat) (st : SchedState) : SchedState :=
  ⟨(st.jobs.map (runJob now)).map Prod.fst,
    st.history ++ (st.jobs.map (runJob now)).filterMap Prod.snd⟩

/-- The `create job proj2.j2 (...) start now every hour` job of
test_project_structure.py lines 648-654, at `now = 0` with an hour period of
60 minutes. -/
def hourlyJob : Job :=
  ⟨"j2", true, some 0, some 60⟩

end Sched

namespace Exec

/-- Modelled from the spec: one row of a materialized batch — column values
keyed by qualified name (`alias.column`), a missing value being SQL null
(spec section 4.4). -/
abbrev Row := List (String × Option Int)

/-- The value of a qualified column in a row; null when absent. -/
def getCol (r : Row) (name : String) : Option Int :=
  match r.find? (fun kv => kv.1 == name) with
  | some kv => kv.2
  | none => none

/-- SQL equality on two cell values: null matches nothing. -/
def valEq : Option Int → Option Int → Bool
  | some a, some b => a == b
  | _, _ => false

/-- Modelled from the spec: nested-loop inner join — the condition is
evaluated per row-pair, matching pairs are concatenated (spec section
4.4). -/
def innerJoin (l r : List Row) (cond : Row → Row → Bool) : List Row :=
  l.flatMap (fun x => (r.filter (cond x)).map (fun y => x ++ y))

/-- A row assigning null to every one of the given right-side columns. -/
def nullRow (cols : List String) : Row :=
  cols.map (fun c => (c, none))

/-- Modelled from the spec: the rows one left row contributes to a left
join — its matches, or exactly one row padded with nulls on every right-side
column when nothing matches (spec section 4.4). -/
def leftJoinOne (r : List Row) (rcols : List String)
    (cond : Row → Row → Bool) (x : Row) : List Row :=
  let ms := r.filter (cond x)
  if ms.isEmpty then [x ++ nullRow rcols] else ms.map (fun y => x ++ y)

/-- Modelled from the spec: nested-loop left join (spec section 4.4). -/
def leftJoin (l r : List Row) (rcols : List String)
    (cond : Row → Row → Bool) : List Row :=
  l.flatMap (leftJoinOne r rcols cond)

/-- The `tbl1` fixture of `test_complex_joins`
(test_project_structure.py lines 353-358), columns `(a, c)`. -/
def tbl1 : List (Int × Int) :=
  [(1, 1), (2, 1), (1, 3), (3, 2)]

/-- The `tbl2` fixture of `test_complex_joins`
(test_project_structure.py lines 359-363), columns `(a, c)`. -/
def tbl2 : List (Int × Int) :=
  [(6, 1), (4, 2), (2, 3)]

/-- A batch of `(a, c)` rows under a table alias. -/
def rowsOf (pre : String) (data : List (Int × Int)) : List Row :=
  data.map (fun ac => [(pre ++ ".a", some ac.1), (pre ++ ".c", some ac.2)])

/-- The table-table-table join of `test_complex_joins`
(test_project_structure.py lines 383-389): `tbl1 as t1 JOIN tbl2 as t2 on
t1.c=t2.c LEFT JOIN tbl1 as t3 on t2.a=t3.a where t1.a=1`. -/
def complexJoinResult : List Row :=
  (leftJoin
      (innerJoin (rowsOf "t1" tbl1) (rowsOf "t2" tbl2)
        (fun x y => valEq (getCol x "t1.c") (getCol y "t2.c")))
      (rowsOf "t3" tbl1) ["t3.a", "t3.c"]
      (fun x y => valEq (getCol x "t2.a") (getCol y "t3.a"))
    ).filter (fun r => valEq (getCol r "t1.a") (some 1))

/-- Modelled from the spec: a case expression — ordered (condition, value)
pairs evaluated top-to-bottom per row, first match wins, else the ELSE value
(spec section 4.4). -/
def caseExpr (branches : List ((Row → Bool) × Int)) (els : Int)
    (r : Row) : Int :=
  match branches with
  | [] => els
  | (c, v) :: rest => if c r then v else caseExpr rest els r

/-- Aggregate MAX over the per-row values of a group (spec section 4.4). -/
def aggMAX : List Int → Option Int
  | [] => none
  | x :: xs => some (xs.foldl max x)

/-- Aggregate MIN over the per-row values of a group (spec section 4.4). -/
def aggMIN : List Int → Option Int
  | [] => none
  | x :: xs => some (xs.foldl min x)

/-- Aggregate SUM over the per-row values of a group (spec section 4.4). -/
def aggSUM (l : List Int) : Int :=
  l.foldr (· + ·) 0

/-- Aggregate COUNT over the per-row values of a group (spec section 4.4). -/
def aggCOUNT (l : List Int) : Nat :=
  l.length

/-- Aggregate AVG over the per-row values of a group (spec section 4.4). -/
def aggAVG (l : List Int) : Option ℚ :=
  match l with
  | [] => none
  | _ => some ((aggSUM l : ℚ) / (aggCOUNT l : ℚ))

/-- Modelled from the spec: the distinct group keys in order of first
appearance (spec section 4.4). -/
def groupKeys (key : Row → Option Int) (rows : List Row) :
    List (Option Int) :=
  rows.foldl (fun ks r => if key r ∈ ks then ks else ks ++ [key r]) []

/-- The rows of one group. -/
def groupRows (key : Row → Option Int) (rows : List Row)
    (k : Option Int) : List Row :=
  rows.filter (fun r => key r == k)

/-- Modelled from the spec: grouping followed by the HAVING filter, which
acts on whole groups after aggregation (spec section 4.4). -/
def groupsHaving (key : Row → Option Int) (rows : List Row)
    (having : List Row → Bool) : List (List Row) :=
  ((groupKeys key rows).map (groupRows key rows)).filter having

/-- The `stores` fixture of `test_complex_queries`
(test_project_structure.py lines 461-471), columns `(id, region_id)` (the
`format` column plays no part in the aggregation query). -/
def stores : List (Int × Int) :=
  [(1, 1), (2, 2), (3, 2), (4, 2), (5, 1), (6, 2)]

/-- The store rows under alias `s`. -/
def storeRows : List Row :=
  stores.map (fun p => [("s.id", some p.1), ("s.region_id", some p.2)])

/-- The `regions` fixture of `test_complex_queries`
(test_project_structure.py lines 472-478) under alias `r`, column `id`. -/
def regionRows : List Row :=
  [[("r.id", some 1)], [("r.id", some 2)]]

/-- The FROM clause of the aggregation query: stores joined to regions on
`r.id = s.region_id` (test_project_structure.py lines 555-557). -/
def aggInputRows : List Row :=
  innerJoin storeRows regionRows
    (fun x y => valEq (getCol x "s.region_id") (getCol y "r.id"))

/-- The 4-way case expression of `test_complex_queries`
(test_project_structure.py lines 539-545): ids 1, 2, 3 map to 10, 20, 30,
anything else to 100. -/
def storeCase (r : Row) : Int :=
  caseExpr
    [(fun r => valEq (getCol r "s.id") (some 1), 10),
     (fun r => valEq (getCol r "s.id") (some 2), 20),
     (fun r => valEq (getCol r "s.id") (some 3), 30)]
    100 r

/-- The grouping of the aggregation query: by `r.id`, with `having
max(r.id) = 2` (test_project_structure.py lines 558-559). -/
def aggGroups : List (List Row) :=
  groupsHaving (fun r => getCol r "r.id") aggInputRows
    (fun g => aggMAX (g.map (fun r => (getCol r "r.id").getD 0)) == some 2)

end Exec

namespace S3

theorem underscore_dot_comp (c : Char) :
    (fun c => if c = '_' then '.' else c) ((fun c => if c = '.' then '_' else c) c)
      = if c = '_' then '.' else c := by
  by_cases h1 : c = '.'
  · subst h1; decide
  · by_cases h2 : c = '_'
    · subst h2; decide
    · simp [h1, h2]

theorem map_underscore_of_not_mem (l : List Char) (h : '_' ∉ l) :
    l.map (fun c => if c = '_' then '.' else c) = l := by
  induction l with
  | nil => rfl
  | cons c cs ih =>
    simp only [List.mem_cons, not_or] at h
    simp [Ne.symm h.1, ih h.2]

theorem map_underscore_ne_of_mem (l : List Char) (h : '_' ∈ l) :
    l.map (fun c => if c = '_' then '.' else c) ≠ l := by
  induction l with
  | nil => simp at h
  | cons c cs ih =>
    by_cases hc : c = '_'
    · subst hc
      intro he
      have : ('.' : Char) = '_' := by simpa using congrArg (·.headD ' ') he
      exact absurd this (by decide)
    · rcases List.mem_cons.mp h with h1 | h2
      · exact absurd h1.symm hc
      · intro he
        exact ih h2 (by simpa [hc] using he)

end S3

/-- C9: a table name produced by `get_tables` (periods to underscores) is
mapped back by `native_query` (underscores to periods) to exactly the
original S3 object key when the key contains no underscore, and never back to
the original key when the key does contain an underscore. -/
theorem S3.table_name_key_roundtrip (key : String) :
    ('_' ∉ key.data → keyOfTableName (tableNameOfKey key) = key) ∧
    ('_' ∈ key.data → keyOfTableName (tableNameOfKey key) ≠ key) := by
  have hdata : (keyOfTableName (tableNameOfKey key)).data
      = key.data.map (fun c => if c = '_' then '.' else c) := by
    simp only [keyOfTableName, tableNameOfKey, List.map_map]
    exact List.map_congr_left (fun c _ => underscore_dot_comp c)
  constructor
  · intro h
    apply String.ext
    rw [hdata]
    exact map_underscore_of_not_mem _ h
  · intro h he
    have := congrArg String.data he
    rw [hdata] at this
    exact map_underscore_ne_of_mem _ h this

/-- Closed instances of `S3.table_name_key_roundtrip`: the key
`dir.data.csv` (no underscore) round-trips exactly, while `my_data.csv`
(with an underscore) does not. -/
theorem S3.table_name_key_roundtrip_witness :
    ('_' ∉ "dir.data.csv".data ∧
      keyOfTableName (tableNameOfKey "dir.data.csv") = "dir.data.csv") ∧
    ('_' ∈ "my_data.csv".data ∧
      keyOfTableName (tableNameOfKey "my_data.csv") ≠ "my_data.csv") :=
  ⟨⟨by decide, (S3.table_name_key_roundtrip "dir.data.csv").1 (by decide)⟩,
   ⟨by decide, (S3.table_name_key_roundtrip "my_data.csv").2 (by decide)⟩⟩

/-- C8: `native_query` raises the `ValueError` naming the allowed extensions
(.csv, .json, .parquet) for every queried object key not ending in one of
them, instead of issuing the fetch; for keys with a supported extension it
issues the fetch request for that key and raises no such error. -/
theorem S3.native_query_extension_validation (table_name : String)
    (column_names : List String) (q : String) :
    (¬ (endsWithExt (keyOfTableName table_name) ".csv" = true ∨
        endsWithExt (keyOfTableName table_name) ".json" = true ∨
        endsWithExt (keyOfTableName table_name) ".parquet" = true) →
      native_query table_name column_names q = .error allowedExtensionsError) ∧
    ((endsWithExt (keyOfTableName table_name) ".csv" = true ∨
      endsWithExt (keyOfTableName table_name) ".json" = true ∨
      endsWithExt (keyOfTableName table_name) ".parquet" = true) →
      ∃ req, native_query table_name column_names q = .ok req ∧
        req.key = keyOfTableName table_name) := by
  constructor
  · intro h
    push_neg at h
    obtain ⟨h1, h2, h3⟩ := h
    simp [native_query, h1, h2, h3]
  · intro h
    cases hc : endsWithExt (keyOfTableName table_name) ".csv"
    · cases hj : endsWithExt (keyOfTableName table_name) ".json"
      · cases hp : endsWithExt (keyOfTableName table_name) ".parquet"
        · rw [hc, hj, hp] at h; simp at h
        · refine ⟨⟨keyOfTableName table_name, q, .parquet⟩, ?_, rfl⟩
          simp [native_query, hc, hj, hp]
      · refine ⟨⟨keyOfTableName table_name, q, .json⟩, ?_, rfl⟩
        simp [native_query, hc, hj]
    · refine ⟨⟨keyOfTableName table_name, q,
          .csv (!column_names.isEmpty)⟩, ?_, rfl⟩
      simp [native_query, hc]

/-- Closed instances of `S3.native_query_extension_validation`: table name
`data_txt` (key `data.txt`) is rejected with the validation error, table name
`data_csv` (key `data.csv`) is fetched. -/
theorem S3.native_query_extension_validation_witness :
    (¬ (endsWithExt (keyOfTableName "data_txt") ".csv" = true ∨
        endsWithExt (keyOfTableName "data_txt") ".json" = true ∨
        endsWithExt (keyOfTableName "data_txt") ".parquet" = true) ∧
      native_query "data_txt" [] "SELECT * FROM S3Object AS s"
        = .error allowedExtensionsError) ∧
    (endsWithExt (keyOfTableName "data_csv") ".csv" = true ∧
      ∃ req, native_query "data_csv" [] "SELECT * FROM S3Object AS s"
        = .ok req ∧ req.key = keyOfTableName "data_csv") :=
  ⟨⟨by decide,
    (S3.native_query_extension_validation "data_txt" [] "SELECT * FROM S3Object AS s").1 (by decide)⟩,
   ⟨by decide,
    (S3.native_query_extension_validation "data_csv" [] "SELECT * FROM S3Object AS s").2
      (Or.inl (by decide))⟩⟩

/-- C10: for every AST node that is not a `Select`, `S3Handler.query` raises
`ValueError` ("Only SELECT queries are supported.") and leaves the handler
state — `table_name` and `column_names` — unchanged, connecting to nothing. -/
theorem S3.query_rejects_non_select (st : S3.HandlerState) (q : S3.ASTNode)
    (h : q.isSelect = false) :
    S3.query st q = (st, .error "Only SELECT queries are supported.") := by
  cases q with
  | select a b c => exact absurd h (by simp [S3.ASTNode.isSelect])
  | insert => rfl
  | update => rfl
  | del => rfl
  | other => rfl

/-- Closed instance of `S3.query_rejects_non_select` at an INSERT node and a
fresh handler state. -/
theorem S3.query_rejects_non_select_witness :
    S3.ASTNode.isSelect .insert = false ∧
    S3.query ⟨none, []⟩ .insert
      = (⟨none, []⟩, .error "Only SELECT queries are supported.") :=
  ⟨rfl, S3.query_rejects_non_select ⟨none, []⟩ .insert rfl⟩

/-- C2: in the retrain cycle of `test_version_managing`, retraining without
`active=0` makes version 2 (tag `second`) active once complete, while the
third retrain with `active=0` completes version 3 (tag `third`) without
activating it, so the unqualified model resolves to version 2 and the
explicitly pinned `task_model.3` resolves to version 3. -/
theorem MVM.retrain_active_flag_scenario :
    MVM.scenario1.versions
      = [⟨1, .complete, "a", "first", true, false⟩] ∧
    MVM.retrain MVM.scenario1 (some "b") (some "second") true
      = .ok MVM.scenario2 ∧
    MVM.retrain MVM.scenario2 (some "a") (some "third") false
      = .ok MVM.scenario3 ∧
    (MVM.resolve MVM.scenario3 none).map (·.version) = .ok 2 ∧
    (MVM.resolve MVM.scenario3 none).map (·.tag) = .ok "second" ∧
    (MVM.resolve MVM.scenario3 (some 3)).map (·.version) = .ok 3 ∧
    (MVM.resolve MVM.scenario3 (some 3)).map (·.tag) = .ok "third" :=
  ⟨rfl, rfl, rfl, rfl, rfl, rfl, rfl⟩

namespace Exec

theorem getCol_nullRow (rcols : List String) (c : String) :
    getCol (nullRow rcols) c = none := by
  unfold getCol
  cases h : (nullRow rcols).find? (fun kv => kv.1 == c) with
  | none => rfl
  | some kv =>
    have hm := List.mem_of_find?_eq_some h
    simp only [nullRow, List.mem_map] at hm
    obtain ⟨d, -, rfl⟩ := hm
    rfl

end Exec

/-- C6: the three-way join of `test_complex_joins` — tbl1 inner-joined to
tbl2 on `c`, left-joined back to tbl1 on the right side's `a`, filtered to
`t1.a = 1` — yields exactly 2 rows whose `t3.a` column takes the values null
and 2; and in a left join every unmatched left row is emitted exactly once,
padded with a null for every right-side column. -/
theorem Exec.complex_join_left_join_nulls :
    (Exec.complexJoinResult.length = 2 ∧
      Exec.complexJoinResult.map (fun r => Exec.getCol r "t3.a")
        = [none, some 2]) ∧
    (∀ (r : List Exec.Row) (rcols : List String)
        (cond : Exec.Row → Exec.Row → Bool) (x : Exec.Row),
      r.filter (cond x) = [] →
      Exec.leftJoinOne r rcols cond x = [x ++ Exec.nullRow rcols]) ∧
    (∀ (rcols : List String) (c : String), c ∈ rcols →
      Exec.getCol (Exec.nullRow rcols) c = none) := by
  refine ⟨⟨by decide, by decide⟩, ?_, ?_⟩
  · intro r rcols cond x h
    simp [Exec.leftJoinOne, h]
  · intro rcols c _
    exact Exec.getCol_nullRow rcols c

/-- Closed instances of the quantified clauses of
`Exec.complex_join_left_join_nulls`: a left row with no match in an empty
right relation is emitted exactly once with the right column `t3.a` null. -/
theorem Exec.complex_join_left_join_nulls_witness :
    (([] : List Exec.Row).filter
        ((fun (_ _ : Exec.Row) => true) [("t1.a", some (1 : Int))]) = [] ∧
      Exec.leftJoinOne [] ["t3.a"] (fun _ _ => true) [("t1.a", some 1)]
        = [[("t1.a", some 1)] ++ Exec.nullRow ["t3.a"]]) ∧
    ("t3.a" ∈ ["t3.a"] ∧
      Exec.getCol (Exec.nullRow ["t3.a"]) "t3.a" = none) :=
  ⟨⟨rfl, Exec.complex_join_left_join_nulls.2.1 [] ["t3.a"] (fun _ _ => true)
      [("t1.a", some 1)] rfl⟩,
   ⟨by decide, Exec.complex_join_left_join_nulls.2.2 ["t3.a"] "t3.a"
      (by decide)⟩⟩

/-- C7: in the aggregation query of `test_complex_queries`, the 4-way case
expression produces the per-row values `[20, 30, 100, 100]` for the group
with `r.id = 2`; grouping produces 2 groups, HAVING (applied to groups after
aggregation) keeps exactly this one, and its aggregates are MAX = 100,
MIN = 20, SUM = 250, COUNT = 4, AVG = 125/2 = 62.5. -/
theorem Exec.aggregation_case_having_example :
    (Exec.groupKeys (fun r => Exec.getCol r "r.id")
        Exec.aggInputRows).length = 2 ∧
    Exec.aggGroups.length = 1 ∧
    Exec.aggGroups.map (fun g => g.map Exec.storeCase) = [[20, 30, 100, 100]] ∧
    Exec.aggGroups.map (fun g => Exec.aggMAX (g.map Exec.storeCase))
      = [some 100] ∧
    Exec.aggGroups.map (fun g => Exec.aggMIN (g.map Exec.storeCase))
      = [some 20] ∧
    Exec.aggGroups.map (fun g => Exec.aggSUM (g.map Exec.storeCase))
      = [250] ∧
    Exec.aggGroups.map (fun g => Exec.aggCOUNT (g.map Exec.storeCase))
      = [4] ∧
    Exec.aggGroups.map (fun g => Exec.aggAVG (g.map Exec.storeCase))
      = [some (125 / 2 : ℚ)] := by
  refine ⟨by decide, by decide, by decide, by decide, by decide, by decide,
    by decide, ?_⟩
  have h1 : Exec.aggGroups.map (fun g => g.map Exec.storeCase)
      = [[20, 30, 100, 100]] := by decide
  have h2 : Exec.aggGroups.map (fun g => Exec.aggAVG (g.map Exec.storeCase))
      = (Exec.aggGroups.map (fun g => g.map Exec.storeCase)).map
          Exec.aggAVG := by
    rw [List.map_map]
    rfl
  rw [h2, h1]
  show [Exec.aggAVG [20, 30, 100, 100]] = [some (125 / 2 : ℚ)]
  simp only [Exec.aggAVG, Exec.aggSUM, Exec.aggCOUNT, List.foldr,
    List.length]
  norm_num

/-- C3: deleting a model version fails with `OperationForbiddenError` when
the version is the model's current active version, fails with
`EntityNotExistsError` when the version does not exist, and otherwise
removes it, after which a query pinned to the deleted version fails with
`EntityNotExistsError`. -/
theorem MVM.delete_version_errors (st : MVM.ModelState) (n : Nat) :
    ((MVM.activeVersion st).map (·.version) = some n →
      MVM.deleteVersion st n = .error .operationForbidden) ∧
    ((MVM.activeVersion st).map (·.version) ≠ some n →
      MVM.liveVersion st n = none →
      MVM.deleteVersion st n = .error .entityNotExists) ∧
    (∀ st', MVM.deleteVersion st n = .ok st' →
      MVM.resolve st' (some n) = .error .entityNotExists) := by
  refine ⟨?_, ?_, ?_⟩
  · intro h
    simp [MVM.deleteVersion, h]
  · intro h1 h2
    simp [MVM.deleteVersion, h1, h2]
  · intro st' h
    rw [MVM.deleteVersion] at h
    by_cases hact : (MVM.activeVersion st).map (·.version) = some n
    · rw [if_pos hact] at h
      exact absurd h (by simp)
    · rw [if_neg hact] at h
      cases hlv : MVM.liveVersion st n with
      | none =>
        rw [hlv] at h
        exact absurd h (by simp)
      | some v =>
        rw [hlv] at h
        injection h with h
        subst h
        have hnone : MVM.liveVersion
            ⟨st.versions.map (fun v =>
              if v.version == n then { v with deleted := true } else v)⟩ n
            = none := by
          rw [MVM.liveVersion, List.find?_eq_none]
          intro x hx
          simp only [List.mem_map] at hx
          obtain ⟨v0, _, rfl⟩ := hx
          by_cases hv : v0.version == n
          · simp [hv]
          · simp [hv]
        simp only [MVM.resolve]
        rw [hnone]

/-- Closed instances of `MVM.delete_version_errors` in the version-managing
scenario (version 1 active, versions 1-3 present): deleting version 1 is
forbidden, deleting version 11 is `EntityNotExistsError`, and after deleting
version 2 a query pinned to version 2 is `EntityNotExistsError`. -/
theorem MVM.delete_version_errors_witness :
    ((MVM.activeVersion MVM.scenario4).map (·.version) = some 1 ∧
      MVM.deleteVersion MVM.scenario4 1 = .error .operationForbidden) ∧
    ((MVM.activeVersion MVM.scenario4).map (·.version) ≠ some 11 ∧
      MVM.liveVersion MVM.scenario4 11 = none ∧
      MVM.deleteVersion MVM.scenario4 11 = .error .entityNotExists) ∧
    (MVM.deleteVersion MVM.scenario4 2
        = .ok ⟨[⟨1, .complete, "a", "first", true, false⟩,
               ⟨2, .complete, "b", "second", false, true⟩,
               ⟨3, .complete, "a", "third", false, false⟩]⟩ ∧
      MVM.resolve ⟨[⟨1, .complete, "a", "first", true, false⟩,
               ⟨2, .complete, "b", "second", false, true⟩,
               ⟨3, .complete, "a", "third", false, false⟩]⟩ (some 2)
        = .error .entityNotExists) :=
  ⟨⟨rfl, (MVM.delete_version_errors MVM.scenario4 1).1 rfl⟩,
   ⟨by decide, rfl,
    (MVM.delete_version_errors MVM.scenario4 11).2.1 (by decide) rfl⟩,
   ⟨rfl, (MVM.delete_version_errors MVM.scenario4 2).2.2 _ rfl⟩⟩

namespace Sched

theorem runJob_not_due (now : Nat) (j : Job) (h : due now j = false) :
    runJob now j = (j, none) := by
  simp [runJob, h]

theorem tick_history_count (now : Nat) (jobs : List Job) :
    ((jobs.map (runJob now)).filterMap Prod.snd).length
      = jobs.countP (due now) := by
  induction jobs with
  | nil => rfl
  | cons j js ih =>
    have ih' : (List.filterMap (Prod.snd ∘ runJob now) js).length
        = List.countP (due now) js := by
      rw [← List.filterMap_map]
      exact ih
    by_cases hd : due now j = true
    · simp [runJob, hd, List.countP_cons, ih']
    · have h' : due now j = false := by simpa using hd
      simp [runJob, h', List.countP_cons, ih']

theorem not_due_after_run (now : Nat) (j : Job)
    (h : due now j = true →
      ∀ t p, j.nextRunAt = some t → j.period = some p → now < t + p) :
    due now (runJob now j).1 = false := by
  by_cases hd : due now j = true
  · rw [runJob, if_pos hd]
    cases ht : j.nextRunAt with
    | none =>
      rw [due, ht] at hd
      simp at hd
    | some t =>
      cases hp : j.period with
      | none => simp [due, ht, hp]
      | some p =>
        have hlt := h hd t p ht hp
        simp only [due, ht, hp]
        rcases hb : j.active with _ | _
        · simp [hb]
        · simp [hb]
          omega
  · rw [runJob, if_neg hd]
    simpa using hd

end Sched

/-- C4: a `checkTimetable` tick appends exactly one history row per due job,
and — whenever each executed job's recomputed `nextRunAt` still lies in the
future, as for the hourly job of `test_job` — a second invocation with no
time elapsed executes nothing and appends no history row, so each job's
stored query runs at most once per due instant. -/
theorem Sched.check_timetable_at_most_once (now : Nat) (st : Sched.SchedState)
    (h : ∀ j ∈ st.jobs, Sched.due now j = true →
      ∀ t p, j.nextRunAt = some t → j.period = some p → now < t + p) :
    (Sched.checkTimetable now st).history.length
      = st.history.length + st.jobs.countP (Sched.due now) ∧
    (Sched.checkTimetable now (Sched.checkTimetable now st)).history
      = (Sched.checkTimetable now st).history := by
  constructor
  · simp only [Sched.checkTimetable, List.length_append,
      Sched.tick_history_count]
  · have hnd : ∀ j1 ∈ (st.jobs.map (Sched.runJob now)).map Prod.fst,
        Sched.due now j1 = false := by
      intro j1 hj1
      simp only [List.map_map, List.mem_map] at hj1
      obtain ⟨j, hj, rfl⟩ := hj1
      exact Sched.not_due_after_run now j (h j hj)
    have hempty : ((((st.jobs.map (Sched.runJob now)).map Prod.fst).map
        (Sched.runJob now)).filterMap Prod.snd) = [] := by
      rw [← List.length_eq_zero, Sched.tick_history_count,
        List.countP_eq_zero]
      intro j1 hj1
      simp [hnd j1 hj1]
    simp only [Sched.checkTimetable]
    rw [hempty, List.append_nil]

/-- Closed instance of `Sched.check_timetable_at_most_once` at the hourly
job started now: the first tick appends its one history row, the second
immediate tick appends none. -/
theorem Sched.check_timetable_at_most_once_witness :
    (Sched.checkTimetable 0 ⟨[Sched.hourlyJob], []⟩).history.length
      = 0 + [Sched.hourlyJob].countP (Sched.due 0) ∧
    (Sched.checkTimetable 0
        (Sched.checkTimetable 0 ⟨[Sched.hourlyJob], []⟩)).history
      = (Sched.checkTimetable 0 ⟨[Sched.hourlyJob], []⟩).history := by
  have h := Sched.check_timetable_at_most_once 0 ⟨[Sched.hourlyJob], []⟩
    (by
      intro j hj hdue t p ht hp
      have hj' : j = Sched.hourlyJob := by simpa using hj
      subst hj'
      simp [Sched.hourlyJob] at ht hp
      omega)
  simpa using h

namespace MVM

theorem le_foldr_max (l : List Nat) (x : Nat) (hx : x ∈ l) :
    x ≤ l.foldr max 0 := by
  induction l with
  | nil => simp at hx
  | cons a as ih =>
    rcases List.mem_cons.mp hx with rfl | h
    · exact le_max_left x (as.foldr max 0)
    · exact le_trans (ih h) (le_max_right a (as.foldr max 0))

theorem init_le_foldr_max (l : List Nat) (b : Nat) : b ≤ l.foldr max b := by
  induction l with
  | nil => exact le_refl b
  | cons a as ih => exact le_trans ih (le_max_right a (as.foldr max b))

theorem version_lt_nextVersion (st : ModelState) (v : ModelVersion)
    (hv : v ∈ st.versions) : v.version < nextVersion st :=
  Nat.lt_succ_of_le
    (le_foldr_max _ _ (List.mem_map.mpr ⟨v, hv, rfl⟩))

theorem map_version_update (vs : List ModelVersion)
    (f : ModelVersion → ModelVersion)
    (hf : ∀ v, (f v).version = v.version) :
    (vs.map f).map (·.version) = vs.map (·.version) := by
  rw [List.map_map]
  exact List.map_congr_left (fun v _ => hf v)

theorem map_version_clearActive (vs : List ModelVersion) :
    (clearActive vs).map (·.version) = vs.map (·.version) :=
  map_version_update vs _ (fun _ => rfl)

theorem foldr_max_append_one (l : List Nat) (a : Nat) :
    (l ++ [a]).foldr max 0 = max (l.foldr max 0) a := by
  induction l with
  | nil => simp
  | cons b bs ih => simp [ih, Nat.max_assoc]

theorem nextVersion_append_alloc (st : ModelState) (vs' : List ModelVersion)
    (nv : ModelVersion) (hv : nv.version = nextVersion st)
    (hmap : vs'.map (·.version) = st.versions.map (·.version)) :
    nextVersion st ≤ nextVersion ⟨vs' ++ [nv]⟩ := by
  simp only [nextVersion, List.map_append, List.map_cons, List.map_nil,
    hmap]
  rw [foldr_max_append_one, hv]
  simp only [nextVersion]
  rw [Nat.max_eq_right (Nat.le_succ _)]
  omega

end MVM

/-- C5: version numbers are allocated as `max existing + 1` starting at 1,
every number assigned by create or retrain is strictly greater than all
version numbers previously assigned for the model (soft-deleted ones
included, so no number is ever reused after deletion), and no operation
discards an assigned number or decreases the allocator. -/
theorem MVM.version_allocation_no_reuse (st st' : MVM.ModelState)
    (op : MVM.Op) (hok : MVM.applyOp st op = .ok st') :
    MVM.nextVersion ⟨[]⟩ = 1 ∧
    (∀ v ∈ st.versions, v.version < MVM.nextVersion st) ∧
    (∀ m ∈ st.versions.map (·.version), m ∈ st'.versions.map (·.version)) ∧
    MVM.nextVersion st ≤ MVM.nextVersion st' := by
  refine ⟨rfl, fun v hv => MVM.version_lt_nextVersion st v hv, ?_⟩
  cases op with
  | create target tag =>
    simp only [MVM.applyOp] at hok
    injection hok with hok
    subst hok
    constructor
    · intro m hm
      simp only [MVM.createVersion, List.map_append,
        MVM.map_version_clearActive]
      exact List.mem_append_left _ hm
    · simp only [MVM.createVersion]
      exact MVM.nextVersion_append_alloc st (MVM.clearActive st.versions)
        ⟨MVM.nextVersion st, .complete, target, tag, true, false⟩ rfl
        (MVM.map_version_clearActive st.versions)
  | retrainOp target? tag? makeActive =>
    simp only [MVM.applyOp, MVM.retrain] at hok
    cases hav : MVM.activeVersion st with
    | none => simp only [hav] at hok; exact absurd hok (by simp)
    | some av =>
      simp only [hav] at hok
      by_cases hma : makeActive = true
      · rw [if_pos (by rw [hma])] at hok
        injection hok with hok
        subst hok
        constructor
        · intro m hm
          simp only [List.map_append, MVM.map_version_clearActive]
          exact List.mem_append_left _ hm
        · exact MVM.nextVersion_append_alloc st
            (MVM.clearActive st.versions)
            ⟨MVM.nextVersion st, .complete, target?.getD av.predictTarget,
              tag?.getD av.tag, makeActive, false⟩ rfl
            (MVM.map_version_clearActive st.versions)
      · rw [if_neg hma] at hok
        injection hok with hok
        subst hok
        constructor
        · intro m hm
          simp only [List.map_append]
          exact List.mem_append_left _ hm
        · exact MVM.nextVersion_append_alloc st st.versions
            ⟨MVM.nextVersion st, .complete, target?.getD av.predictTarget,
              tag?.getD av.tag, makeActive, false⟩ rfl rfl
  | activateOp n =>
    simp only [MVM.applyOp, MVM.activate] at hok
    cases hlv : MVM.liveVersion st n with
    | none => simp only [hlv] at hok; exact absurd hok (by simp)
    | some v =>
      simp only [hlv] at hok
      injection hok with hok
      subst hok
      have hmap := MVM.map_version_update st.versions
        (fun v => { v with active := v.version == n && !v.deleted })
        (fun _ => rfl)
      constructor
      · intro m hm
        rw [hmap]
        exact hm
      · simp only [MVM.nextVersion, hmap]
        exact le_refl _
  | deleteOp n =>
    simp only [MVM.applyOp, MVM.deleteVersion] at hok
    by_cases hact : (MVM.activeVersion st).map (·.version) = some n
    · rw [if_pos hact] at hok; exact absurd hok (by simp)
    · rw [if_neg hact] at hok
      cases hlv : MVM.liveVersion st n with
      | none => simp only [hlv] at hok; exact absurd hok (by simp)
      | some v =>
        simp only [hlv] at hok
        injection hok with hok
        subst hok
        have hmap := MVM.map_version_update st.versions
          (fun v => if v.version == n then { v with deleted := true } else v)
          (fun v => by by_cases hv : v.version == n <;> simp [hv])
        constructor
        · intro m hm
          rw [hmap]
          exact hm
        · simp only [MVM.nextVersion, hmap]
          exact le_refl _

/-- Closed instance of `MVM.version_allocation_no_reuse` at the retrain with
`active=0` from version-2 state to version-3 state. -/
theorem MVM.version_allocation_no_reuse_witness :
    MVM.applyOp MVM.scenario2
        (MVM.Op.retrainOp (some "a") (some "third") false)
      = .ok MVM.scenario3 ∧
    (MVM.nextVersion ⟨[]⟩ = 1 ∧
      (∀ v ∈ MVM.scenario2.versions,
        v.version < MVM.nextVersion MVM.scenario2) ∧
      (∀ m ∈ MVM.scenario2.versions.map (·.version),
        m ∈ MVM.scenario3.versions.map (·.version)) ∧
      MVM.nextVersion MVM.scenario2 ≤ MVM.nextVersion MVM.scenario3) :=
  ⟨rfl, MVM.version_allocation_no_reuse MVM.scenario2 MVM.scenario3
    (MVM.Op.retrainOp (some "a") (some "third") false) rfl⟩

namespace MVM

theorem countP_active_clearActive (vs : List ModelVersion) :
    (clearActive vs).countP (fun v => v.active && !v.deleted) = 0 := by
  rw [clearActive, List.countP_map, List.countP_eq_zero]
  intro v _
  simp

theorem wf_append_alloc (st : ModelState) (vs' : List ModelVersion)
    (nv : ModelVersion) (hv : nv.version = nextVersion st)
    (hmap : vs'.map (·.version) = st.versions.map (·.version))
    (hwf : Wf st) : Wf ⟨vs' ++ [nv]⟩ := by
  rw [Wf] at hwf ⊢
  simp only [List.map_append, hmap, List.map_cons, List.map_nil]
  rw [List.nodup_append]
  refine ⟨hwf, List.nodup_singleton _, ?_⟩
  intro a ha hb
  rw [List.mem_singleton] at hb
  subst hb
  obtain ⟨v, hv2, hveq⟩ := List.mem_map.mp ha
  have hlt := version_lt_nextVersion st v hv2
  omega

theorem find?_unique_of_countP_le_one {α : Type} (p : α → Bool) (x : α) :
    ∀ (l : List α), l.countP p ≤ 1 → x ∈ l → p x = true →
      l.find? p = some x := by
  intro l
  induction l with
  | nil => intro _ hx _; simp at hx
  | cons a as ih =>
    intro hc hx hpx
    by_cases hpa : p a = true
    · rw [List.find?_cons_of_pos _ hpa]
      rcases List.mem_cons.mp hx with rfl | hxs
      · rfl
      · exfalso
        have h1 : as.countP p = 0 := by
          have := List.countP_cons_of_pos (p := p) as hpa
          omega
        rw [List.countP_eq_zero] at h1
        exact h1 x hxs hpx
    · rw [List.find?_cons_of_neg _ hpa]
      rcases List.mem_cons.mp hx with rfl | hxs
      · exact absurd hpx hpa
      · refine ih ?_ hxs hpx
        have := List.countP_cons_of_neg (p := p) as hpa
        omega

theorem find?_map_congr {α : Type} (p : α → Bool) (f : α → α) :
    ∀ (l : List α), (∀ y ∈ l, p (f y) = p y) →
      (∀ y ∈ l, p y = true → f y = y) →
      (l.map f).find? p = l.find? p := by
  intro l
  induction l with
  | nil => intro _ _; rfl
  | cons a as ih =>
    intro h1 h2
    by_cases hpa : p a = true
    · rw [List.map_cons,
        List.find?_cons_of_pos _
          (by rw [h1 a (List.mem_cons_self a as)]; exact hpa),
        List.find?_cons_of_pos _ hpa,
        h2 a (List.mem_cons_self a as) hpa]
    · rw [List.map_cons,
        List.find?_cons_of_neg _
          (by rw [h1 a (List.mem_cons_self a as)]; exact hpa),
        List.find?_cons_of_neg _ hpa]
      exact ih (fun y hy => h1 y (List.mem_cons_of_mem a hy))
        (fun y hy => h2 y (List.mem_cons_of_mem a hy))

theorem countP_singleton_le_one {α : Type} (p : α → Bool) (x : α) :
    List.countP p [x] ≤ 1 := by
  rw [List.countP_cons]
  split <;> simp

theorem active_mem_eq (st : ModelState) (hinv : uniqueActive st)
    (y : ModelVersion) (hy : y ∈ st.versions)
    (hpy : (y.active && !y.deleted) = true) :
    activeVersion st = some y := by
  rw [activeVersion]
  exact find?_unique_of_countP_le_one _ y st.versions hinv hy hpy

end MVM

/-- C1: after every create, retrain, activate, or delete that succeeds, at
most one non-deleted version of the model is marked active; and the active
version changes only by an explicit activation request — an operation
carrying none (delete, or retrain with `active=0`) leaves the active version
exactly as it was. -/
theorem MVM.single_active_version (st st' : MVM.ModelState) (op : MVM.Op)
    (hok : MVM.applyOp st op = .ok st') (hwf : MVM.Wf st)
    (hinv : MVM.uniqueActive st) :
    MVM.uniqueActive st' ∧ MVM.Wf st' ∧
      (MVM.explicitActivation op = false →
        MVM.activeVersion st' = MVM.activeVersion st) := by
  cases op with
  | create target tag =>
    simp only [MVM.applyOp] at hok
    injection hok with hok
    subst hok
    refine ⟨?_, ?_, fun h => absurd h (by simp [MVM.explicitActivation])⟩
    · rw [MVM.uniqueActive, MVM.createVersion, List.countP_append,
        MVM.countP_active_clearActive]
      simpa using MVM.countP_singleton_le_one _ _
    · exact MVM.wf_append_alloc st (MVM.clearActive st.versions)
        ⟨MVM.nextVersion st, .complete, target, tag, true, false⟩ rfl
        (MVM.map_version_clearActive st.versions) hwf
  | retrainOp target? tag? makeActive =>
    simp only [MVM.applyOp, MVM.retrain] at hok
    cases hav : MVM.activeVersion st with
    | none => simp only [hav] at hok; exact absurd hok (by simp)
    | some av =>
      simp only [hav] at hok
      by_cases hma : makeActive = true
      · rw [if_pos hma] at hok
        injection hok with hok
        subst hok
        refine ⟨?_, ?_, ?_⟩
        · rw [MVM.uniqueActive, List.countP_append,
            MVM.countP_active_clearActive]
          simpa using MVM.countP_singleton_le_one _ _
        · exact MVM.wf_append_alloc st (MVM.clearActive st.versions)
            ⟨MVM.nextVersion st, .complete, target?.getD av.predictTarget,
              tag?.getD av.tag, makeActive, false⟩ rfl
            (MVM.map_version_clearActive st.versions) hwf
        · intro h
          simp only [MVM.explicitActivation] at h
          rw [h] at hma
          exact absurd hma (by simp)
      · rw [if_neg hma] at hok
        injection hok with hok
        subst hok
        have hma' : makeActive = false := by simpa using hma
        have hinv' := hinv
        rw [MVM.uniqueActive] at hinv'
        refine ⟨?_, ?_, ?_⟩
        · rw [MVM.uniqueActive, List.countP_append]
          simpa [List.countP_cons, hma'] using hinv'
        · exact MVM.wf_append_alloc st st.versions
            ⟨MVM.nextVersion st, .complete, target?.getD av.predictTarget,
              tag?.getD av.tag, makeActive, false⟩ rfl rfl hwf
        · intro _
          simp only [MVM.activeVersion, List.find?_append]
          have hnone : List.find?
              (fun v : MVM.ModelVersion => v.active && !v.deleted)
              ([⟨MVM.nextVersion st, .complete,
                target?.getD av.predictTarget, tag?.getD av.tag,
                makeActive, false⟩] : List MVM.ModelVersion) = none := by
            simp [hma']
          rw [hnone, Option.or_none]
          rw [MVM.activeVersion] at hav
          exact hav
  | activateOp n =>
    simp only [MVM.applyOp, MVM.activate] at hok
    cases hlv : MVM.liveVersion st n with
    | none => simp only [hlv] at hok; exact absurd hok (by simp)
    | some v =>
      simp only [hlv] at hok
      injection hok with hok
      subst hok
      refine ⟨?_, ?_, fun h => absurd h (by simp [MVM.explicitActivation])⟩
      · rw [MVM.uniqueActive, List.countP_map]
        have h1 : ∀ x ∈ st.versions,
            ((fun v => v.active && !v.deleted) ∘
              (fun v =>
                { v with active := v.version == n && !v.deleted })) x = true →
            (fun v : MVM.ModelVersion => v.version == n) x = true := by
          intro x _ hx
          simp only [Function.comp] at hx
          simp only []
          cases hxe : (x.version == n) with
          | true => rfl
          | false => rw [hxe] at hx; simp at hx
        calc List.countP _ st.versions
            ≤ List.countP (fun v : MVM.ModelVersion => v.version == n)
                st.versions := List.countP_mono_left h1
          _ = List.count n (st.versions.map (·.version)) := by
              rw [List.count_eq_countP, List.countP_map]
              rfl
          _ ≤ 1 := List.nodup_iff_count_le_one.mp hwf n
      · have h2 := MVM.map_version_update st.versions
          (fun v => { v with active := v.version == n && !v.deleted })
          (fun _ => rfl)
        rw [MVM.Wf] at hwf ⊢
        rw [h2]
        exact hwf
  | deleteOp n =>
    simp only [MVM.applyOp, MVM.deleteVersion] at hok
    by_cases hact : (MVM.activeVersion st).map (·.version) = some n
    · rw [if_pos hact] at hok; exact absurd hok (by simp)
    · rw [if_neg hact] at hok
      cases hlv : MVM.liveVersion st n with
      | none => simp only [hlv] at hok; exact absurd hok (by simp)
      | some v =>
        simp only [hlv] at hok
        injection hok with hok
        subst hok
        have hkey : ∀ y ∈ st.versions, (y.active && !y.deleted) = true →
            (y.version == n) = false := by
          intro y hy hpy
          cases hyv : (y.version == n) with
          | false => rfl
          | true =>
            exfalso
            apply hact
            rw [MVM.active_mem_eq st hinv y hy hpy]
            have : y.version = n := by simpa using hyv
            simp [this]
        have hpf : ∀ y ∈ st.versions,
            ((if y.version == n then { y with deleted := true } else y).active
              && !(if y.version == n then { y with deleted := true }
                    else y).deleted)
            = (y.active && !y.deleted) := by
          intro y hy
          cases hyv : (y.version == n) with
          | true =>
            have hpy : (y.active && !y.deleted) = false := by
              cases hpy : (y.active && !y.deleted) with
              | false => rfl
              | true => rw [hkey y hy hpy] at hyv; exact absurd hyv (by simp)
            simp only [hyv, if_true]
            simpa using hpy
          | false => simp [hyv]
        have hid : ∀ y ∈ st.versions, (y.active && !y.deleted) = true →
            (if y.version == n then { y with deleted := true } else y) = y := by
          intro y hy hpy
          rw [hkey y hy hpy]
          simp
        refine ⟨?_, ?_, ?_⟩
        · rw [MVM.uniqueActive, List.countP_map]
          have heq : List.countP ((fun w : MVM.ModelVersion =>
              w.active && !w.deleted) ∘ (fun w =>
                if w.version == n then { w with deleted := true } else w))
              st.versions
              = List.countP (fun w : MVM.ModelVersion =>
                  w.active && !w.deleted) st.versions := by
            apply List.countP_congr
            intro y hy
            exact iff_of_eq (congrArg (fun b => b = true) (hpf y hy))
          rw [heq]
          exact hinv
        · have h2 := MVM.map_version_update st.versions
            (fun w => if w.version == n then { w with deleted := true } else w)
            (fun w => by by_cases hw : (w.version == n) = true <;> simp [hw])
          rw [MVM.Wf] at hwf ⊢
          rw [h2]
          exact hwf
        · intro _
          simp only [MVM.activeVersion]
          exact MVM.find?_map_congr _ _ st.versions hpf hid

/-- Closed instance of `MVM.single_active_version` at the non-activating
retrain from the version-2 state: the invariant holds afterwards and version
2 remains the active version. -/
theorem MVM.single_active_version_witness :
    (MVM.applyOp MVM.scenario2
        (MVM.Op.retrainOp (some "a") (some "third") false)
      = .ok MVM.scenario3 ∧
      MVM.Wf MVM.scenario2 ∧ MVM.uniqueActive MVM.scenario2) ∧
    (MVM.uniqueActive MVM.scenario3 ∧ MVM.Wf MVM.scenario3 ∧
      (MVM.explicitActivation
          (MVM.Op.retrainOp (some "a") (some "third") false) = false →
        MVM.activeVersion MVM.scenario3 = MVM.activeVersion MVM.scenario2)) :=
  ⟨⟨rfl, by decide, by decide⟩,
   MVM.single_active_version MVM.scenario2 MVM.scenario3
     (MVM.Op.retrainOp (some "a") (some "third") false) rfl
     (by decide) (by decide)⟩
